import Mathlib

/-!
Shallow embedding of the Go package `textwrap` (files `textwrapper.go`,
`utilities.go`, `options.go`).  Go strings are modelled as `List Char`
(one element per rune); rune length is `List.length` and Go's byte
length `len(s)` is `byteLen` (sum of UTF-8 sizes).  The `Wrap` loop can
fail to terminate, so it is modelled with explicit fuel: `none` means
the fuel ran out.  A Go `panic` in `Wrap` is modelled as `Except.error`
with the panic message.
-/

namespace Textwrap

abbrev GoStr := List Char

/-- Whitespace = " \t\n\v\f\r" from textwrapper.go. -/
def isWSChar (c : Char) : Bool :=
  c = ' ' || c = '\t' || c = '\n' || c = Char.ofNat 11 || c = Char.ofNat 12 || c = '\r'

def emDash : Char := Char.ofNat 8212

/-- Lstrip(s) = strings.TrimLeft(s, Whitespace). -/
def Lstrip (s : GoStr) : GoStr := s.dropWhile isWSChar

/-- Rstrip(s) = strings.TrimRight(s, Whitespace). -/
def Rstrip (s : GoStr) : GoStr := (s.reverse.dropWhile isWSChar).reverse

/-- Strip(s) = strings.Trim(s, Whitespace). -/
def Strip (s : GoStr) : GoStr := Rstrip (Lstrip s)

/-- The test `Strip(s) == ""` used throughout the Go code. -/
def isBlank (s : GoStr) : Bool := (Strip s).isEmpty

/-- Go `len(s)` on a string: its byte length (UTF-8). -/
def byteLen (s : GoStr) : Nat := (s.map Char.utf8Size).sum

/-- The TextWrapper configuration record (textwrapper.go). -/
structure TextWrapper where
  Width : Int
  ExpandTabs : Bool
  TabSize : Int
  ReplaceWhitespace : Bool
  DropWhitespace : Bool
  InitialIndent : GoStr
  SubsequentIndent : GoStr
  FixSentenceEndings : Bool
  BreakLongWords : Bool
  BreakOnHyphens : Bool
  MaxLines : Int
  Placeholder : GoStr
deriving Repr, DecidableEq

/-- NewTextWrapper() with no options: the default values. -/
def NewTextWrapper : TextWrapper :=
  { Width := 70
    ExpandTabs := true
    TabSize := 8
    ReplaceWhitespace := true
    DropWhitespace := true
    InitialIndent := []
    SubsequentIndent := []
    FixSentenceEndings := false
    BreakLongWords := true
    BreakOnHyphens := true
    MaxLines := 0
    Placeholder := (" [...]").toList }

/-- Tab expansion: strings.Replace(text, Tab, strings.Repeat(Space, TabSize), -1). -/
def expandTabsGo (tabSize : Int) (s : GoStr) : GoStr :=
  s.flatMap fun c => if c = '\t' then List.replicate tabSize.toNat ' ' else [c]

/-- WhitespaceRe.ReplaceAllString(text, Space): every whitespace char other
than the plain space becomes a space. -/
def replaceWSGo (s : GoStr) : GoStr :=
  s.map fun c => if isWSChar c && c ≠ ' ' then ' ' else c

def isSentEnd (c : Char) : Bool := c = '.' || c = '!' || c = '?'

def isQuote (c : Char) : Bool := c = Char.ofNat 39 || c = Char.ofNat 34

/-- SentenceEndingRe.ReplaceAllString(text, "${1}  "), fuelled: for each
leftmost non-overlapping match of `([^ws][.!?]['"]?) [ ]*` the matched span
is replaced by the captured group followed by two spaces.  The fuel is at
least the input length, so it never runs out at the canonical call. -/
def fixSEF : Nat → GoStr → GoStr
  | 0, s => s
  | _ + 1, [] => []
  | fuel + 1, c0 :: rest0 =>
    if ¬ isWSChar c0 then
      match rest0 with
      | c1 :: rest1 =>
        if isSentEnd c1 then
          match rest1 with
          | c2 :: rest2 =>
            if isQuote c2 then
              match rest2 with
              | c3 :: rest3 =>
                if c3 = ' ' then
                  c0 :: c1 :: c2 :: ' ' :: ' ' :: fixSEF fuel (rest3.dropWhile (· = ' '))
                else c0 :: fixSEF fuel rest0
              | [] => c0 :: fixSEF fuel rest0
            else if c2 = ' ' then
              c0 :: c1 :: ' ' :: ' ' :: fixSEF fuel (rest2.dropWhile (· = ' '))
            else c0 :: fixSEF fuel rest0
          | [] => c0 :: fixSEF fuel rest0
        else c0 :: fixSEF fuel rest0
      | [] => [c0]
    else c0 :: fixSEF fuel rest0

def fixSEGo (s : GoStr) : GoStr := fixSEF s.length s

/-- Splits off the maximal run of characters satisfying `p`. -/
def splitRun (p : Char → Bool) : GoStr → GoStr × GoStr
  | [] => ([], [])
  | c :: cs =>
    if p c then
      let r := splitRun p cs
      (c :: r.1, r.2)
    else ([], c :: cs)

/-- Index of the last '-' in the list, if any. -/
def lastHyphenPos : GoStr → Option Nat
  | [] => none
  | c :: cs =>
    match lastHyphenPos cs with
    | some i => some (i + 1)
    | none => if c = '-' then some 0 else none

/-- The `[^ws]+-` alternative of ChunksHyphenRe at the start of a non-whitespace
run: the greedy backtracking match takes everything up to and including the
last hyphen at index `m ≥ 1`.  Returns the match and the unmatched suffix. -/
def hyphenCut (run : GoStr) : Option (GoStr × GoStr) :=
  match lastHyphenPos run with
  | some m => if 1 ≤ m then some (run.take (m + 1), run.drop (m + 1)) else none
  | none => none

/-- ChunksHyphenRe.FindAllString / ChunksNoHyphenRe.FindAllString, fuelled:
leftmost-first matching of `(— | [^ws]+- | [^ws]+ | [ws]+)` (the second
alternative only when `hyph` is true).  The fuel is at least the input
length, so it never runs out at the canonical call. -/
def splitChunksF (hyph : Bool) : Nat → GoStr → List GoStr
  | _, [] => []
  | 0, _ :: _ => []
  | fuel + 1, c :: cs =>
    if c = emDash then [c] :: splitChunksF hyph fuel cs
    else if isWSChar c then
      let r := splitRun isWSChar cs
      (c :: r.1) :: splitChunksF hyph fuel r.2
    else
      let r := splitRun (fun x => ¬ isWSChar x) cs
      let run := c :: r.1
      if hyph then
        match hyphenCut run with
        | some (chunk, suf) => chunk :: splitChunksF hyph fuel (suf ++ r.2)
        | none => run :: splitChunksF hyph fuel r.2
      else run :: splitChunksF hyph fuel r.2

def splitChunks (hyph : Bool) (s : GoStr) : List GoStr := splitChunksF hyph s.length s

/-- The preprocessing pipeline of Wrap (textwrapper.go lines 197-211). -/
def preprocessGo (t : TextWrapper) (text : GoStr) : GoStr :=
  let t1 := if t.ExpandTabs then expandTabsGo t.TabSize text else text
  let t2 := if t.ReplaceWhitespace then replaceWSGo t1 else t1
  if t.FixSentenceEndings then fixSEGo t2 else t2

/-- The chunk sequence Wrap computes for a text (textwrapper.go lines 213-219). -/
def chunksOf (t : TextWrapper) (text : GoStr) : List GoStr :=
  splitChunks t.BreakOnHyphens (preprocessGo t text)

/-- strings.Join(chunks, ""). -/
def joinChunks (l : List GoStr) : GoStr := l.foldr (· ++ ·) []

/-- The inner greedy-fill loop of Wrap (textwrapper.go lines 245-254):
appends chunks while `curLen + len([]rune(chunk)) < width`, returning the
consumed chunks, the new current length and the unconsumed rest. -/
def greedyFill (width : Int) : Int → List GoStr → List GoStr × Int × List GoStr
  | curLen, [] => ([], curLen, [])
  | curLen, c :: cs =>
    if curLen + (c.length : Int) ≥ width then ([], curLen, c :: cs)
    else
      let r := greedyFill width (curLen + (c.length : Int)) cs
      (c :: r.1, r.2.1, r.2.2)

/-- The long-chunk lookahead of Wrap (textwrapper.go lines 256-277), applied
to the output of the greedy fill: when the first unconsumed chunk is wider
than the line width it is either split at the remaining capacity
(BreakLongWords), force-appended whole (empty line, not the forced last
line), or left for the next iteration.  The Go slice expression
`c[:spaceLeft]` panics with a slice-bounds runtime error when spaceLeft is
outside [0, len(c)] — reachable on an empty chunk when the effective width
is negative, where spaceLeft = 1 > 0 = len(c) — modelled as `none`. -/
def handleLong (blw isLastIdx : Bool) (width : Int)
    (line0 : List GoStr) (len0 : Int) (rest0 : List GoStr) :
    Option (List GoStr × Int × List GoStr) :=
  match rest0 with
  | [] => some (line0, len0, [])
  | r :: rs =>
    if (r.length : Int) > width then
      if blw then
        let spaceLeft : Int := if width ≥ 1 then width - len0 else 1
        if spaceLeft < 0 ∨ (r.length : Int) < spaceLeft then none
        else some (line0 ++ [r.take spaceLeft.toNat], len0 + spaceLeft,
          r.drop spaceLeft.toNat :: rs)
      else if len0 == 0 && !isLastIdx then
        some (line0 ++ [r], len0 + (r.length : Int), rs)
      else some (line0, len0, r :: rs)
    else some (line0, len0, r :: rs)

/-- The trailing-whitespace drop of Wrap (textwrapper.go lines 279-284). -/
def dropTrail (dws : Bool) (line1 : List GoStr) (len1 : Int) : List GoStr × Int :=
  if dws && len1 > 0 then
    match line1.getLast? with
    | some last => if isBlank last then (line1.dropLast, len1 - (last.length : Int)) else (line1, len1)
    | none => (line1, len1)
  else (line1, len1)

/-- The line-building phase of one loop iteration (textwrapper.go lines
245-284): greedy fill, then long-chunk lookahead, then trailing-whitespace
drop.  Returns ((chunks of the line, current length), remaining chunks),
or `none` when the lookahead's slice expression panics. -/
def buildLine (t : TextWrapper) (isLastIdx : Bool) (width : Int) (cs1 : List GoStr) :
    Option ((List GoStr × Int) × List GoStr) :=
  match handleLong t.BreakLongWords isLastIdx width (greedyFill width 0 cs1).1
      (greedyFill width 0 cs1).2.1 (greedyFill width 0 cs1).2.2 with
  | none => none
  | some e => some (dropTrail t.DropWhitespace e.1 e.2.1, e.2.2)

/-- The leading-whitespace drop (textwrapper.go lines 225-227): past the
first line, with DropWhitespace set, one whitespace-only chunk is skipped. -/
def dropLead (t : TextWrapper) (lines : List GoStr) (cs0 : List GoStr) : List GoStr :=
  match cs0 with
  | c :: rest => if !lines.isEmpty && t.DropWhitespace && isBlank c then rest else cs0
  | [] => cs0

/-- Indent selection (textwrapper.go lines 230-235). -/
def pickIndent (t : TextWrapper) (lines : List GoStr) : GoStr :=
  if lines.isEmpty then t.InitialIndent else t.SubsequentIndent

/-- The test `len(lines) == t.MaxLines-1` (textwrapper.go lines 239, 272, 289). -/
def isLastLine (t : TextWrapper) (lines : List GoStr) : Bool :=
  (lines.length : Int) = t.MaxLines - 1

/-- The guard of the truncation branch (textwrapper.go lines 239 and 289). -/
def isFinalLine (t : TextWrapper) (lines : List GoStr) : Bool :=
  t.MaxLines > 0 && isLastLine t lines

/-- The effective line width (textwrapper.go lines 238-241); note that
`width -= len(t.Placeholder)` subtracts a byte length. -/
def effWidth (t : TextWrapper) (lines : List GoStr) : Int :=
  t.Width - ((pickIndent t lines).length : Int) -
    (if isFinalLine t lines then (byteLen t.Placeholder : Int) else 0)

/-- The truncation/emit phase (textwrapper.go lines 286-303), applied to the
output of `buildLine`. -/
def emitPhase (t : TextWrapper) (lines : List GoStr)
    (bf : (List GoStr × Int) × List GoStr) : List GoStr ⊕ (List GoStr × List GoStr) :=
  if isFinalLine t lines then
    Sum.inl (lines ++ [pickIndent t lines ++ joinChunks
      (if bf.1.2 == 0 then bf.1.1 ++ [Lstrip t.Placeholder] else bf.1.1 ++ [t.Placeholder])])
  else if bf.1.2 > 0 then
    Sum.inr (lines ++ [pickIndent t lines ++ joinChunks bf.1.1], bf.2)
  else
    Sum.inr (lines, bf.2)

/-- One iteration of the main packing loop of Wrap (textwrapper.go lines
223-304), in terms of the accumulated `lines` and the remaining chunk list.
`Sum.inl` is the `break` of the truncation branch (the loop terminates with
the given lines); `Sum.inr` carries the state to the next iteration; `none`
is the slice-bounds panic of the long-chunk lookahead. -/
def wrapStep (t : TextWrapper) (lines : List GoStr) (cs0 : List GoStr) :
    Option (List GoStr ⊕ (List GoStr × List GoStr)) :=
  match buildLine t (isLastLine t lines) (effWidth t lines) (dropLead t lines cs0) with
  | none => none
  | some bf => some (emitPhase t lines bf)

/-- The Go runtime panic message of an out-of-bounds slice expression (the
runtime also appends the offending index and length). -/
def sliceBoundsMsg : String := "runtime error: slice bounds out of range"

/-- The main packing loop, fuelled (one unit of fuel per iteration of the Go
`for` loop); `.ok none` means the fuel ran out before the loop terminated,
and `.error` is the slice-bounds runtime panic of the lookahead. -/
def wrapLoop (t : TextWrapper) : Nat → List GoStr → List GoStr →
    Except String (Option (List GoStr))
  | _, lines, [] => .ok (some lines)
  | 0, _, _ :: _ => .ok none
  | fuel + 1, lines, c :: cs =>
    match wrapStep t lines (c :: cs) with
    | none => .error sliceBoundsMsg
    | some (Sum.inl fin) => .ok (some fin)
    | some (Sum.inr (lines', cs')) => wrapLoop t fuel lines' cs'

/-- TextWrapper.Wrap (textwrapper.go lines 169-307).  `Except.error msg`
models a panic — the three explicit validation panics, or the slice-bounds
runtime panic of the long-chunk lookahead; `Except.ok none` means the
packing loop did not terminate within `fuel` iterations. -/
def TextWrapper.Wrap (t : TextWrapper) (text : GoStr) (fuel : Nat) :
    Except String (Option (List GoStr)) :=
  if t.Width < 1 then .error "Width must be at least 1."
  else if t.ExpandTabs ∧ t.TabSize < 0 then .error "Tab size must be at least 0 to expand tabs."
  else if 0 < t.MaxLines ∧
      (byteLen (if t.MaxLines = 1 then t.InitialIndent else t.SubsequentIndent) : Int) +
        (byteLen (Lstrip t.Placeholder) : Int) > t.Width then
    .error "Placeholder is too wide to fit on indented line."
  else wrapLoop t fuel [] (chunksOf t text)

/-- TextWrapper.Fill: strings.Join(t.Wrap(text), Newline). -/
def joinNL : List GoStr → GoStr
  | [] => []
  | [l] => l
  | l :: l' :: ls => l ++ '\n' :: joinNL (l' :: ls)

def TextWrapper.Fill (t : TextWrapper) (text : GoStr) (fuel : Nat) :
    Except String (Option GoStr) :=
  (t.Wrap text fuel).map (·.map joinNL)

/-- ConsWhitespaceRe.ReplaceAllString(text, Space), fuelled: each maximal
whitespace run becomes a single space. -/
def collapseWSF : Nat → GoStr → GoStr
  | 0, s => s
  | _ + 1, [] => []
  | fuel + 1, c :: cs =>
    if isWSChar c then ' ' :: collapseWSF fuel (cs.dropWhile isWSChar)
    else c :: collapseWSF fuel cs

def collapseWS (s : GoStr) : GoStr := collapseWSF s.length s

/-- Shorten (utilities.go lines 28-35): force MaxLines to 1, collapse
whitespace runs, then Fill. -/
def Shorten (t : TextWrapper) (text : GoStr) (fuel : Nat) : Except String (Option GoStr) :=
  TextWrapper.Fill { t with MaxLines := 1 } (collapseWS text) fuel

/-- strings.Split(text, "\n"). -/
def splitNL : GoStr → List GoStr
  | [] => [[]]
  | c :: cs =>
    if c = '\n' then [] :: splitNL cs
    else
      match splitNL cs with
      | [] => [[c]]
      | r :: rs => (c :: r) :: rs

/-- Rune-wise common leading part of two strings (the `j` loop in Dedent). -/
def commonLead : GoStr → GoStr → GoStr
  | a :: as, b :: bs => if a = b then a :: commonLead as bs else []
  | _, _ => []

def startsWithGo : GoStr → GoStr → Bool
  | [], _ => true
  | _ :: _, [] => false
  | p :: ps, c :: cs => p = c && startsWithGo ps cs

/-- strings.TrimPrefix(l, pre). -/
def trimPre (pre l : GoStr) : GoStr := if startsWithGo pre l then l.drop pre.length else l

/-- The indent computed by the first loop of Dedent (utilities.go lines
44-59): the first non-blank line contributes its leading whitespace, later
non-blank lines shrink it to the common leading part (skipped when the
indent is already empty).  `start` is the Go `start` flag. -/
def dedentIndent : List GoStr → GoStr → Bool → GoStr
  | [], ind, _ => ind
  | l :: ls, ind, start =>
    if isBlank l then dedentIndent ls ind start
    else if start then dedentIndent ls (l.takeWhile isWSChar) false
    else if ind.length ≠ 0 then dedentIndent ls (commonLead ind l) false
    else dedentIndent ls ind false

/-- Dedent (utilities.go lines 40-66): whitespace-only lines are blanked,
the common indent is computed from the other lines, and the indent is
trimmed from every line. -/
def Dedent (text : GoStr) : GoStr :=
  let lines := splitNL text
  let ind := dedentIndent lines [] true
  let blanked := lines.map fun l => if isBlank l then [] else l
  joinNL (blanked.map (trimPre ind))

/-- The negation of the three validation conditions that make Wrap panic
(textwrapper.go lines 173-192). -/
def validCfg (t : TextWrapper) : Prop :=
  ¬ t.Width < 1 ∧ ¬ (t.ExpandTabs ∧ t.TabSize < 0) ∧
    ¬ (0 < t.MaxLines ∧
      (byteLen (if t.MaxLines = 1 then t.InitialIndent else t.SubsequentIndent) : Int) +
        (byteLen (Lstrip t.Placeholder) : Int) > t.Width)

/-- The width bound claimed for an emitted line: its rune length is at most
Width, or (only with BreakLongWords false) it is an indent followed by one
single chunk wider than that line's remaining width. -/
def lineOk (t : TextWrapper) (l : GoStr) : Prop :=
  (l.length : Int) ≤ t.Width ∨
    (t.BreakLongWords = false ∧ ∃ pre c, (pre = t.InitialIndent ∨ pre = t.SubsequentIndent) ∧
      l = pre ++ c ∧ (pre.length : Int) + (c.length : Int) > t.Width)

/-! ### Basic helper lemmas -/

theorem length_le_byteLen (s : GoStr) : s.length ≤ byteLen s := by
  induction s with
  | nil => simp [byteLen]
  | cons c cs ih =>
    have h := Char.utf8Size_pos c
    simp only [byteLen, List.map_cons, List.sum_cons, List.length_cons] at *
    omega

theorem joinChunks_nil : joinChunks [] = [] := rfl

theorem joinChunks_cons (x : GoStr) (l : List GoStr) :
    joinChunks (x :: l) = x ++ joinChunks l := rfl

theorem joinChunks_concat (l : List GoStr) (x : GoStr) :
    joinChunks (l ++ [x]) = joinChunks l ++ x := by
  induction l with
  | nil => simp [joinChunks]
  | cons a as ih => simp [joinChunks_cons, ih, List.append_assoc]

/-! ### C6: the validation conditions, and a reachable post-validation panic -/

/-- Any error raised by the packing loop itself (as opposed to the three
validation checks) is the slice-bounds runtime panic. -/
theorem wrapLoop_error_msg (t : TextWrapper) :
    ∀ (fuel : Nat) (lines cs : List GoStr) (msg : String),
      wrapLoop t fuel lines cs = .error msg → msg = sliceBoundsMsg := by
  intro fuel
  induction fuel with
  | zero =>
    intro lines cs msg h
    cases cs with
    | nil => exact Except.noConfusion h
    | cons c cs' => exact Except.noConfusion h
  | succ fuel ih =>
    intro lines cs msg h
    cases cs with
    | nil => exact Except.noConfusion h
    | cons c cs' =>
      simp only [wrapLoop] at h
      rcases hws : wrapStep t lines (c :: cs') with _ | (fin | ⟨lines', cs''⟩) <;>
        rw [hws] at h <;> simp only at h
      · injection h with h2
        exact h2.symm
      · exact Except.noConfusion h
      · exact ih lines' cs'' msg h

/-- C6 counterexample: the configuration Width 1, SubsequentIndent "xx",
DropWhitespace false passes all three validation checks, yet Wrap("ab")
panics at runtime: the first iteration splits "ab" and emits "a"; the second
has effective width 1 − 2 = −1, so the minimum-progress split (spaceLeft 1)
emits "xxb" and leaves the empty chunk "" in the list; the third iteration's
lookahead fires on "" (0 > −1) and `c[:1]` on an empty rune slice is out of
bounds. -/
theorem wrap_runtime_panic :
    TextWrapper.Wrap { NewTextWrapper with Width := 1, SubsequentIndent := ("xx").toList, DropWhitespace := false } (("ab").toList) 3 =
      .error sliceBoundsMsg ∧
    ¬ (({ NewTextWrapper with Width := 1, SubsequentIndent := ("xx").toList, DropWhitespace := false } : TextWrapper).Width < 1 ∨
      (({ NewTextWrapper with Width := 1, SubsequentIndent := ("xx").toList, DropWhitespace := false } : TextWrapper).ExpandTabs ∧
        ({ NewTextWrapper with Width := 1, SubsequentIndent := ("xx").toList, DropWhitespace := false } : TextWrapper).TabSize < 0) ∨
      (0 < ({ NewTextWrapper with Width := 1, SubsequentIndent := ("xx").toList, DropWhitespace := false } : TextWrapper).MaxLines ∧
        (byteLen (if ({ NewTextWrapper with Width := 1, SubsequentIndent := ("xx").toList, DropWhitespace := false } : TextWrapper).MaxLines = 1 then ({ NewTextWrapper with Width := 1, SubsequentIndent := ("xx").toList, DropWhitespace := false } : TextWrapper).InitialIndent else ({ NewTextWrapper with Width := 1, SubsequentIndent := ("xx").toList, DropWhitespace := false } : TextWrapper).SubsequentIndent) : Int) +
          (byteLen (Lstrip ({ NewTextWrapper with Width := 1, SubsequentIndent := ("xx").toList, DropWhitespace := false } : TextWrapper).Placeholder) : Int) >
            ({ NewTextWrapper with Width := 1, SubsequentIndent := ("xx").toList, DropWhitespace := false } : TextWrapper).Width)) :=
  ⟨rfl, by decide⟩

/-- C6 amended: Wrap raises one of the three validation panics — before any
text processing and independently of the input text — exactly when width < 1,
or expand-tabs is set with a negative tab-size, or max-lines > 0 and the byte
length of the relevant indent (subsequent indent, or initial indent when
max-lines = 1) plus the left-stripped placeholder exceeds width.  Passing
validation does not rule out every error, however: any error raised
afterwards is the slice-bounds runtime panic of the long-chunk lookahead,
reachable when an empty chunk left by an earlier split meets a negative
effective width. -/
theorem wrap_validation_error_iff (t : TextWrapper) (text : GoStr) (fuel : Nat) :
    (∃ msg, t.Wrap text fuel = .error msg ∧ msg ≠ sliceBoundsMsg) ↔
      (t.Width < 1 ∨ (t.ExpandTabs ∧ t.TabSize < 0) ∨
        (0 < t.MaxLines ∧
          (byteLen (if t.MaxLines = 1 then t.InitialIndent else t.SubsequentIndent) : Int) +
            (byteLen (Lstrip t.Placeholder) : Int) > t.Width)) := by
  unfold TextWrapper.Wrap
  by_cases h1 : t.Width < 1
  · rw [if_pos h1]
    exact ⟨fun _ => Or.inl h1, fun _ => ⟨_, rfl, by decide⟩⟩
  · rw [if_neg h1]
    by_cases h2 : t.ExpandTabs ∧ t.TabSize < 0
    · rw [if_pos h2]
      exact ⟨fun _ => Or.inr (Or.inl h2), fun _ => ⟨_, rfl, by decide⟩⟩
    · rw [if_neg h2]
      by_cases h3 : 0 < t.MaxLines ∧
          (byteLen (if t.MaxLines = 1 then t.InitialIndent else t.SubsequentIndent) : Int) +
            (byteLen (Lstrip t.Placeholder) : Int) > t.Width
      · rw [if_pos h3]
        exact ⟨fun _ => Or.inr (Or.inr h3), fun _ => ⟨_, rfl, by decide⟩⟩
      · rw [if_neg h3]
        constructor
        · rintro ⟨msg, hmsg, hne⟩
          exact absurd (wrapLoop_error_msg t fuel [] (chunksOf t text) msg hmsg) hne
        · rintro (h | h | h)
          · exact absurd h h1
          · exact absurd h h2
          · exact absurd h h3

/-! ### C1: nontermination on an exact-fit chunk -/

theorem c1_loop : ∀ fuel : Nat,
    wrapLoop { NewTextWrapper with Width := 5 } fuel [] [("hello").toList] = .ok none
  | 0 => rfl
  | fuel + 1 => by
    have h : wrapLoop { NewTextWrapper with Width := 5 } (fuel + 1) [] [("hello").toList] =
        wrapLoop { NewTextWrapper with Width := 5 } fuel [] [("hello").toList] := rfl
    rw [h]
    exact c1_loop fuel

/-- C1: the packing loop does not always terminate.  With Width 5 and
otherwise default options, the single chunk "hello" has rune length exactly
equal to the effective width: the greedy fill defers it (strict <), the
lookahead does not split it (it is not strictly wider than the width), no
line is emitted, and the state repeats, so Wrap("hello", Width(5)) runs
forever — modelled as fuel exhaustion for every fuel value. -/
theorem wrap_diverges_exact_fit : ∀ fuel : Nat,
    TextWrapper.Wrap { NewTextWrapper with Width := 5 } (("hello").toList) fuel = .ok none := by
  intro fuel
  have h : TextWrapper.Wrap { NewTextWrapper with Width := 5 } (("hello").toList) fuel =
      wrapLoop { NewTextWrapper with Width := 5 } fuel [] [("hello").toList] := rfl
  rw [h, c1_loop fuel]

/-! ### C2: the truncation branch fires even with no chunks remaining -/

/-- C2: with Width 10 and MaxLines 1, the two-rune text "ab" fits on one
line, yet Wrap appends the placeholder: the truncation branch fires whenever
the final allowed line is built, whether or not chunks remain. -/
theorem wrap_placeholder_despite_fit :
    TextWrapper.Wrap { NewTextWrapper with Width := 10, MaxLines := 1 } (("ab").toList) 2 =
      .ok (some [("ab [...]").toList]) := rfl

/-! ### C4: the Shorten scenario -/

/-- C4: Shorten("Hello  world, how are you?", Width(11)) returns "[...]",
not the claimed "Hello [...]": the effective width of the single line is
11 − 6 = 5 and the 5-rune chunk "Hello" is deferred by the strict-< greedy
test, leaving the line empty. -/
theorem shorten_hello_world :
    Shorten { NewTextWrapper with Width := 11 } (("Hello  world, how are you?").toList) 10 =
      .ok (some (("[...]").toList)) := rfl

/-! ### C3 counterexample: an overlong line with BreakLongWords true -/

/-- C3 counterexample: with Width 1, indents "xx" and BreakLongWords true
(a configuration that passes validation), Wrap("ab") emits the line "xxa" of
rune length 3 > 1, which is not the documented single-unbreakable-chunk
exception (that exception requires break-long-words false). -/
theorem wrap_overlong_line :
    TextWrapper.Wrap { NewTextWrapper with Width := 1, InitialIndent := ("xx").toList, SubsequentIndent := ("xx").toList } (("ab").toList) 5 =
      .ok (some [("xxa").toList, ("xxb").toList]) ∧
    ¬ ((("xxa").toList.length : Int) ≤ (1 : Int)) ∧
    ({ NewTextWrapper with Width := 1, InitialIndent := ("xx").toList, SubsequentIndent := ("xx").toList } : TextWrapper).BreakLongWords = true :=
  ⟨rfl, by decide, rfl⟩

/-! ### C5 counterexample: no back-off at truncation time -/

/-- C5 counterexample: with Width 6 and MaxLines 1 (valid: the left-stripped
placeholder "[...]" has 5 ≤ 6 bytes), Wrap("abcdefgh") emits "a [...]" of
rune length 7 > 6: when the placeholder does not fit after the line content
no chunks are popped, no previous line absorbs the placeholder, and no
placeholder-only line is emitted — the placeholder is appended as-is. -/
theorem wrap_truncation_overflow :
    TextWrapper.Wrap { NewTextWrapper with Width := 6, MaxLines := 1 } (("abcdefgh").toList) 2 =
      .ok (some [("a [...]").toList]) ∧
    ¬ ((("a [...]").toList.length : Int) ≤ (6 : Int)) :=
  ⟨rfl, by decide⟩

/-! ### C7 counterexample: empty input with MaxLines 1 -/

/-- C7 counterexample: with MaxLines 1 and otherwise default options, Wrap of
the empty string returns the empty sequence, not a single placeholder line:
the chunk list is empty so the loop body never runs. -/
theorem wrap_empty_maxlines_one :
    TextWrapper.Wrap { NewTextWrapper with MaxLines := 1 } ([] : GoStr) 1 = .ok (some []) ∧
    ([] : List GoStr) ≠
      [({ NewTextWrapper with MaxLines := 1 } : TextWrapper).InitialIndent ++
        Lstrip ({ NewTextWrapper with MaxLines := 1 } : TextWrapper).Placeholder] :=
  ⟨rfl, by decide⟩

/-! ### C9 counterexample: the round trip fails under the claimed condition -/

/-- C8: the greedy fill appends a chunk only while the current length plus
the chunk's rune length stays strictly below the width: the consumed chunks
are a prefix of the input, every consumed chunk satisfied the strict bound
at the moment it was appended, and the first unconsumed chunk (if any) would
meet or exceed the width — in particular a chunk that would exactly fill the
width is never included in the current line. -/
theorem greedy_strict_bound (width : Int) (cs : List GoStr) : ∀ (curLen : Int)
    (line : List GoStr) (len' : Int) (rest : List GoStr),
    greedyFill width curLen cs = (line, len', rest) →
    line ++ rest = cs ∧
    (∀ i (hi : i < line.length),
      curLen + ((joinChunks (line.take i)).length : Int) +
        ((line.get ⟨i, hi⟩).length : Int) < width) ∧
    (∀ c rs, rest = c :: rs → len' + (c.length : Int) ≥ width) := by
  induction cs with
  | nil =>
    intro curLen line len' rest h
    simp only [greedyFill] at h
    cases h
    refine ⟨rfl, ?_, ?_⟩
    · intro i hi
      simp at hi
    · intro c rs hr
      cases hr
  | cons c cs ih =>
    intro curLen line len' rest h
    simp only [greedyFill] at h
    split at h
    · cases h
      rename_i hge
      refine ⟨rfl, ?_, ?_⟩
      · intro i hi
        simp at hi
      · intro c' rs hr
        cases hr
        exact hge
    · rename_i hlt
      rcases e : greedyFill width (curLen + (c.length : Int)) cs with ⟨l1, len1, r1⟩
      rw [e] at h
      cases h
      obtain ⟨ih1, ih2, ih3⟩ := ih (curLen + (c.length : Int)) l1 len1 r1 e
      refine ⟨by rw [List.cons_append, ih1], ?_, ih3⟩
      intro i hi
      match i, hi with
      | 0, hi =>
        simp only [List.take_zero, joinChunks_nil, List.length_nil, List.get]
        omega
      | i + 1, hi =>
        have hi' : i < l1.length := by simpa using hi
        have h2 := ih2 i hi'
        simp only [List.take_succ_cons, joinChunks_cons, List.length_append, List.get] at *
        push_cast at *
        omega

/-- Witness for C8 at width 5 with chunks "ab" (2 runes) and "cde" (3 runes):
"ab" is consumed, and "cde" — which would exactly fill the width — is
deferred. -/
theorem greedy_strict_bound_witness :
    ([("ab").toList] : List GoStr) ++ [("cde").toList] = [("ab").toList, ("cde").toList] ∧
    (∀ i (hi : i < ([("ab").toList] : List GoStr).length),
      (0 : Int) + ((joinChunks (([("ab").toList] : List GoStr).take i)).length : Int) +
        ((([("ab").toList] : List GoStr).get ⟨i, hi⟩).length : Int) < 5) ∧
    (∀ c rs, [("cde").toList] = c :: rs → (2 : Int) + (c.length : Int) ≥ 5) :=
  greedy_strict_bound 5 [("ab").toList, ("cde").toList] 0 [("ab").toList] 2 [("cde").toList] rfl

/-! ### Lemmas about splitNL / joinNL -/

theorem splitNL_ne_nil (s : GoStr) : splitNL s ≠ [] := by
  induction s with
  | nil => simp [splitNL]
  | cons c cs ih =>
    unfold splitNL
    split_ifs
    · simp
    · cases h : splitNL cs <;> simp

theorem no_nl_mem_splitNL (s : GoStr) : ∀ l ∈ splitNL s, '\n' ∉ l := by
  induction s with
  | nil =>
    intro l hl
    simp [splitNL] at hl
    simp [hl]
  | cons c cs ih =>
    intro l hl
    unfold splitNL at hl
    split_ifs at hl with hc
    · rcases List.mem_cons.mp hl with rfl | h
      · simp
      · exact ih l h
    · rcases h : splitNL cs with _ | ⟨r, rs⟩
      · exact absurd h (splitNL_ne_nil cs)
      · rw [h] at hl
        rcases List.mem_cons.mp hl with rfl | h2
        · intro hmem
          rcases List.mem_cons.mp hmem with h3 | h3
          · exact hc h3.symm
          · exact ih r (h ▸ List.mem_cons_self r rs) h3
        · exact ih l (h ▸ List.mem_cons_of_mem r h2)

theorem splitNL_of_no_nl (l : GoStr) (h : '\n' ∉ l) : splitNL l = [l] := by
  induction l with
  | nil => rfl
  | cons c cs ih =>
    have hc : ¬ c = '\n' := fun hc => h (hc ▸ List.mem_cons_self c cs)
    have hcs : '\n' ∉ cs := fun h2 => h (List.mem_cons_of_mem c h2)
    unfold splitNL
    rw [if_neg hc, ih hcs]

theorem splitNL_append_nl (l r : GoStr) (h : '\n' ∉ l) :
    splitNL (l ++ '\n' :: r) = l :: splitNL r := by
  induction l with
  | nil => simp [splitNL]
  | cons c cs ih =>
    have hc : ¬ c = '\n' := fun hc => h (hc ▸ List.mem_cons_self c cs)
    have hcs : '\n' ∉ cs := fun h2 => h (List.mem_cons_of_mem c h2)
    simp only [List.cons_append]
    conv_lhs => rw [splitNL]
    rw [if_neg hc, ih hcs]

theorem splitNL_joinNL : ∀ ls : List GoStr, ls ≠ [] → (∀ l ∈ ls, '\n' ∉ l) →
    splitNL (joinNL ls) = ls
  | [], h0, _ => absurd rfl h0
  | [l], _, h => by
    simp only [joinNL]
    exact splitNL_of_no_nl l (h l (List.mem_singleton.mpr rfl))
  | l :: l' :: ls, _, h => by
    simp only [joinNL]
    rw [splitNL_append_nl _ _ (h l (List.mem_cons_self _ _))]
    rw [splitNL_joinNL (l' :: ls) (by simp) (fun x hx => h x (List.mem_cons_of_mem l hx))]

theorem trimPre_nil (pre : GoStr) : trimPre pre [] = [] := by
  unfold trimPre
  split <;> simp

theorem no_nl_trimPre (pre l : GoStr) (h : '\n' ∉ l) : '\n' ∉ trimPre pre l := by
  unfold trimPre
  split
  · intro hmem
    exact h (List.mem_of_mem_drop hmem)
  · exact h

/-- The lines of Dedent's output are the blanked lines of the input with the
computed indent trimmed. -/
theorem dedent_lines (text : GoStr) :
    splitNL (Dedent text) = (splitNL text).map
      (fun l => trimPre (dedentIndent (splitNL text) [] true) (if isBlank l then [] else l)) := by
  show splitNL (joinNL (((splitNL text).map fun l => if isBlank l then [] else l).map
      (trimPre (dedentIndent (splitNL text) [] true)))) = _
  rw [List.map_map]
  rw [splitNL_joinNL]
  · rfl
  · simp [splitNL_ne_nil]
  · intro l hl
    rcases List.mem_map.mp hl with ⟨x, hx, rfl⟩
    simp only [Function.comp]
    apply no_nl_trimPre
    split
    · simp
    · exact no_nl_mem_splitNL text x hx

/-! ### C10: whitespace-only lines are blanked by Dedent -/

/-- C10: every whitespace-only input line becomes the empty string in
Dedent's output (at the same line index), whatever the computed common
indent is; consequently Dedent is not the identity on a text with no common
indent that contains a non-empty whitespace-only line. -/
theorem dedent_blanks_ws_lines (text : GoStr) (i : Nat) (l : GoStr)
    (hl : (splitNL text)[i]? = some l) (hb : isBlank l = true) :
    (splitNL (Dedent text))[i]? = some [] ∧
    (l ≠ [] → dedentIndent (splitNL text) [] true = [] → Dedent text ≠ text) := by
  constructor
  · rw [dedent_lines, List.getElem?_map, hl]
    simp [hb, trimPre_nil]
  · intro hne _ heq
    apply hne
    have h2 : splitNL (Dedent text) = splitNL text := by rw [heq]
    rw [dedent_lines] at h2
    have h3 := congrArg (fun ls => ls[i]?) h2
    simp only [List.getElem?_map, hl] at h3
    simp [hb, trimPre_nil] at h3
    exact h3

/-- Witness for C10 on the text " \na" at line index 0 (the line " "). -/
theorem dedent_blanks_ws_lines_witness :
    ((splitNL (Dedent ((" \na").toList)))[0]? = some [] ∧ Dedent ((" \na").toList) ≠ (" \na").toList) :=
  ⟨(dedent_blanks_ws_lines ((" \na").toList) 0 ([' ']) (by decide) (by decide)).1,
    (dedent_blanks_ws_lines ((" \na").toList) 0 ([' ']) (by decide) (by decide)).2
      (by decide) (by decide)⟩

/-! ### C5 amended: the truncation branch appends the placeholder directly -/

/-- C5 amended: whenever the packing loop reaches the forced last line
(max-lines > 0 and len(lines) = max-lines − 1), the iteration never backs
off.  Either the long-chunk lookahead panics before the truncation branch
(slice bounds out of range, on an empty chunk met with a negative effective
width), or exactly one line is appended after the untouched previously
emitted lines, the loop stops, and that line ends with the placeholder
(left-stripped when the built line is empty).  No chunks are popped to
make room and no separate placeholder-only extra line exists; room is
instead pre-reserved by subtracting the placeholder's byte length from the
effective width. -/
theorem wrap_truncation_step (t : TextWrapper) (lines cs : List GoStr)
    (hml : t.MaxLines > 0) (hlast : (lines.length : Int) = t.MaxLines - 1) :
    wrapStep t lines cs = none ∨
    ∃ fin, wrapStep t lines cs = some (Sum.inl (lines ++ [fin])) ∧
      (List.IsSuffix (Lstrip t.Placeholder) fin ∨ List.IsSuffix t.Placeholder fin) := by
  have hf : isFinalLine t lines = true := by
    unfold isFinalLine isLastLine
    rw [decide_eq_true hml, decide_eq_true hlast]
    rfl
  rcases hb : buildLine t (isLastLine t lines) (effWidth t lines) (dropLead t lines cs)
    with _ | bf
  · refine Or.inl ?_
    unfold wrapStep
    rw [hb]
  · refine Or.inr ?_
    have hstep : wrapStep t lines cs = some (emitPhase t lines bf) := by
      unfold wrapStep
      rw [hb]
    rw [hstep]
    unfold emitPhase
    rw [if_pos hf]
    refine ⟨_, rfl, ?_⟩
    split
    · exact Or.inl ⟨_ ++ _, by rw [joinChunks_concat, List.append_assoc]⟩
    · exact Or.inr ⟨_ ++ _, by rw [joinChunks_concat, List.append_assoc]⟩

/-- Witness for C5's amended statement: default configuration with
MaxLines 1, no lines emitted yet, one chunk "a" remaining. -/
theorem wrap_truncation_step_witness :
    wrapStep { NewTextWrapper with MaxLines := 1 } [] [[('a' : Char)]] = none ∨
    ∃ fin, wrapStep { NewTextWrapper with MaxLines := 1 } [] [[('a' : Char)]] =
        some (Sum.inl ([] ++ [fin])) ∧
      (List.IsSuffix (Lstrip ({ NewTextWrapper with MaxLines := 1 } : TextWrapper).Placeholder) fin ∨
        List.IsSuffix ({ NewTextWrapper with MaxLines := 1 } : TextWrapper).Placeholder fin) :=
  wrap_truncation_step { NewTextWrapper with MaxLines := 1 } [] [[('a' : Char)]]
    (by decide) (by decide)

/-! ### Helper lemmas on whitespace, blanks and the tokenizer -/

theorem dropWhile_length_le (p : Char → Bool) (l : GoStr) :
    (l.dropWhile p).length ≤ l.length := by
  induction l with
  | nil => simp
  | cons c cs ih =>
    by_cases h : p c
    · rw [List.dropWhile_cons_of_pos h]
      exact Nat.le_succ_of_le ih
    · rw [List.dropWhile_cons_of_neg h]

theorem isBlank_of_all_ws (s : GoStr) (h : ∀ c ∈ s, isWSChar c = true) : isBlank s = true := by
  unfold isBlank Strip Rstrip Lstrip
  rw [List.dropWhile_eq_nil_iff.mpr h]
  rfl

theorem splitRun_all (p : Char → Bool) (l : GoStr) (h : ∀ c ∈ l, p c = true) :
    splitRun p l = (l, []) := by
  induction l with
  | nil => rfl
  | cons c cs ih =>
    simp only [splitRun]
    rw [if_pos (h c (List.mem_cons_self c cs)), ih (fun x hx => h x (List.mem_cons_of_mem c hx))]

theorem isWSChar_emDash : isWSChar emDash = false := by decide

/-- A non-empty all-whitespace text tokenizes to a single whitespace chunk. -/
theorem splitChunks_all_ws (hyph : Bool) (c : Char) (cs : GoStr)
    (h : ∀ x ∈ c :: cs, isWSChar x = true) : splitChunks hyph (c :: cs) = [c :: cs] := by
  unfold splitChunks
  simp only [List.length_cons, splitChunksF]
  have hc : isWSChar c = true := h c (List.mem_cons_self c cs)
  have hne : ¬ c = emDash := by
    intro he
    rw [he, isWSChar_emDash] at hc
    cases hc
  rw [if_neg hne, if_pos hc, splitRun_all isWSChar cs (fun x hx => h x (List.mem_cons_of_mem c hx))]
  cases cs <;> rfl

theorem wrap_ok (t : TextWrapper) (hv : validCfg t) (text : GoStr) (fuel : Nat) :
    t.Wrap text fuel = wrapLoop t fuel [] (chunksOf t text) := by
  unfold TextWrapper.Wrap
  rw [if_neg hv.1, if_neg hv.2.1, if_neg (by exact_mod_cast hv.2.2)]

theorem preprocess_nil (t : TextWrapper) : preprocessGo t [] = [] := by
  unfold preprocessGo expandTabsGo replaceWSGo fixSEGo fixSEF
  split_ifs <;> rfl

theorem wrapLoop_nil_cs (t : TextWrapper) (fuel : Nat) (lines : List GoStr) :
    wrapLoop t fuel lines [] = .ok (some lines) := by
  cases fuel <;> rfl

theorem greedyFill_single_ge {w : Int} {s : GoStr} (h : (s.length : Int) ≥ w) :
    greedyFill w 0 [s] = ([], 0, [s]) := by
  simp only [greedyFill]
  rw [if_pos (by omega)]

theorem greedyFill_single_lt {w : Int} {s : GoStr} (h : (s.length : Int) < w) :
    greedyFill w 0 [s] = ([s], (s.length : Int), []) := by
  simp only [greedyFill]
  rw [if_neg (by omega)]
  norm_num

theorem dropTrail_single_blank {l : GoStr} {len : Int} (hb : isBlank l = true) (hlen : 0 < len) :
    dropTrail true [l] len = ([], len - (l.length : Int)) := by
  unfold dropTrail
  rw [if_pos (by simp [hlen])]
  rw [List.getLast?_singleton]
  simp [hb]

/-- One loop iteration on a single non-empty all-whitespace chunk with
MaxLines 1 and DropWhitespace: the truncation branch emits exactly the
initial indent followed by the left-stripped placeholder. -/
theorem wrapStep_all_ws (t : TextWrapper) (s : GoStr) (hs : s ≠ [])
    (hws : ∀ c ∈ s, isWSChar c = true) (hml : t.MaxLines = 1)
    (hd : t.DropWhitespace = true) :
    wrapStep t [] [s] = some (Sum.inl [t.InitialIndent ++ Lstrip t.Placeholder]) := by
  have hlen : 0 < s.length := List.length_pos.mpr hs
  have hb : isBlank s = true := isBlank_of_all_ws s hws
  have hlast : isLastLine t [] = true := by
    unfold isLastLine
    rw [hml]
    rfl
  have hfin : isFinalLine t [] = true := by
    unfold isFinalLine
    rw [hlast, decide_eq_true (show t.MaxLines > 0 by omega)]
    rfl
  have hdrop : dropLead t [] [s] = [s] := by
    unfold dropLead
    simp
  have hbuild : ∀ w : Int, ∃ rest, buildLine t true w [s] = some (([], (0 : Int)), rest) := by
    intro w
    unfold buildLine
    by_cases hge : (s.length : Int) ≥ w
    · rw [greedyFill_single_ge hge]
      unfold handleLong
      dsimp only
      by_cases hgt : (s.length : Int) > w
      · rw [if_pos hgt]
        by_cases hblw : t.BreakLongWords
        · rw [if_pos hblw]
          by_cases hw1 : w ≥ 1
          · rw [if_pos hw1]
            rw [if_neg (show ¬ ((w - 0 : Int) < 0 ∨ (s.length : Int) < w - 0) by omega)]
            dsimp only
            rw [hd]
            simp only [List.nil_append]
            have htake : ((s.take (w - 0).toNat).length : Int) = w := by
              rw [List.length_take]
              have h4 : (w - 0).toNat = w.toNat := by omega
              rw [h4]
              have h3 : w.toNat ≤ s.length := by omega
              push_cast
              omega
            rw [dropTrail_single_blank (isBlank_of_all_ws _
              (fun c hc => hws c (List.mem_of_mem_take hc))) (by omega)]
            refine ⟨[s.drop (w - 0).toNat], ?_⟩
            simp only [Option.some.injEq, Prod.mk.injEq]
            exact ⟨⟨trivial, by omega⟩, trivial⟩
          · rw [if_neg hw1]
            rw [if_neg (show ¬ ((1 : Int) < 0 ∨ (s.length : Int) < 1) by omega)]
            dsimp only
            rw [hd]
            simp only [List.nil_append]
            have htake : ((s.take (1 : Int).toNat).length : Int) = 1 := by
              rw [List.length_take]
              push_cast
              omega
            rw [dropTrail_single_blank (isBlank_of_all_ws _
              (fun c hc => hws c (List.mem_of_mem_take hc))) (by omega)]
            refine ⟨[s.drop (1 : Int).toNat], ?_⟩
            simp only [Option.some.injEq, Prod.mk.injEq]
            exact ⟨⟨trivial, by omega⟩, trivial⟩
        · rw [if_neg hblw]
          have hcond : ¬ (((0 : Int) == 0) && !true) = true := by decide
          rw [if_neg hcond]
          dsimp only
          rw [hd]
          unfold dropTrail
          rw [if_neg (by simp)]
          exact ⟨_, rfl⟩
      · rw [if_neg hgt]
        dsimp only
        rw [hd]
        unfold dropTrail
        rw [if_neg (by simp)]
        exact ⟨_, rfl⟩
    · rw [greedyFill_single_lt (by omega)]
      unfold handleLong
      dsimp only
      rw [hd]
      rw [dropTrail_single_blank hb (by exact_mod_cast hlen)]
      refine ⟨[], ?_⟩
      simp only [Option.some.injEq, Prod.mk.injEq]
      exact ⟨⟨trivial, by omega⟩, trivial⟩
  obtain ⟨rest, hbd⟩ := hbuild (effWidth t [])
  unfold wrapStep
  rw [hdrop, hlast, hbd]
  dsimp only
  unfold emitPhase
  rw [if_pos hfin]
  simp [pickIndent, joinChunks]

/-- C7 amended: for every valid configuration Wrap of the empty string is
the empty sequence (even when max-lines = 1); and for input that is
non-empty and all-whitespace after preprocessing, with max-lines = 1 and
drop-whitespace set, Wrap produces exactly one line: the initial indent
plus the left-stripped placeholder. -/
theorem wrap_empty_ws_behavior (t : TextWrapper) (hv : validCfg t) (text : GoStr) (fuel : Nat) :
    (t.Wrap [] fuel = .ok (some [])) ∧
    (t.MaxLines = 1 → t.DropWhitespace = true → preprocessGo t text ≠ [] →
      (∀ c ∈ preprocessGo t text, isWSChar c = true) →
      t.Wrap text (fuel + 1) = .ok (some [t.InitialIndent ++ Lstrip t.Placeholder])) := by
  constructor
  · rw [wrap_ok t hv]
    unfold chunksOf
    rw [preprocess_nil]
    rw [show splitChunks t.BreakOnHyphens [] = [] from rfl]
    rw [wrapLoop_nil_cs]
  · intro hml hd hne hws
    rw [wrap_ok t hv]
    unfold chunksOf
    rcases hpre : preprocessGo t text with _ | ⟨c, cs⟩
    · exact absurd hpre hne
    · rw [hpre] at hws
      rw [splitChunks_all_ws t.BreakOnHyphens c cs hws]
      simp only [wrapLoop]
      rw [wrapStep_all_ws t (c :: cs) (by simp) hws hml hd]

/-- Witness for C7's amended statement: default configuration with
MaxLines 1 on the all-whitespace input " ". -/
theorem wrap_empty_ws_behavior_witness :
    (TextWrapper.Wrap { NewTextWrapper with MaxLines := 1 } [] 3 = .ok (some [])) ∧
    (({ NewTextWrapper with MaxLines := 1 } : TextWrapper).MaxLines = 1 →
      ({ NewTextWrapper with MaxLines := 1 } : TextWrapper).DropWhitespace = true →
      preprocessGo { NewTextWrapper with MaxLines := 1 } ((" ").toList) ≠ [] →
      (∀ c ∈ preprocessGo { NewTextWrapper with MaxLines := 1 } ((" ").toList), isWSChar c = true) →
      TextWrapper.Wrap { NewTextWrapper with MaxLines := 1 } ((" ").toList) (3 + 1) =
        .ok (some [({ NewTextWrapper with MaxLines := 1 } : TextWrapper).InitialIndent ++
          Lstrip ({ NewTextWrapper with MaxLines := 1 } : TextWrapper).Placeholder])) :=
  wrap_empty_ws_behavior { NewTextWrapper with MaxLines := 1 }
    (by refine ⟨by decide, by decide, ?_⟩; decide) ((" ").toList) 3

/-! ### Helper lemmas for the Dedent/Indent round trip -/

theorem greedyFill_spec (w : Int) (cs : List GoStr) : ∀ cur : Int,
    (greedyFill w cur cs).1 ++ (greedyFill w cur cs).2.2 = cs ∧
    (greedyFill w cur cs).2.1 = cur + ((joinChunks (greedyFill w cur cs).1).length : Int) ∧
    (cur < w → (greedyFill w cur cs).2.1 < w) := by
  induction cs with
  | nil =>
    intro cur
    refine ⟨rfl, by simp [greedyFill, joinChunks], fun h => by simpa [greedyFill] using h⟩
  | cons c cs ih =>
    intro cur
    by_cases h : cur + (c.length : Int) ≥ w
    · simp only [greedyFill, if_pos h]
      exact ⟨rfl, by simp [joinChunks], fun h2 => h2⟩
    · simp only [greedyFill, if_neg h]
      obtain ⟨ih1, ih2, ih3⟩ := ih (cur + (c.length : Int))
      refine ⟨?_, ?_, ?_⟩
      · dsimp only
        rw [List.cons_append, ih1]
      · dsimp only
        rw [ih2, joinChunks_cons, List.length_append]
        push_cast
        ring
      · intro _
        exact ih3 (by omega)

theorem handleLong_spec (blw isLast : Bool) (w len0 : Int) (line0 rest0 : List GoStr)
    (hw : 1 ≤ w) (hj : len0 = ((joinChunks line0).length : Int)) (hlt : len0 < w) :
    ∃ e, handleLong blw isLast w line0 len0 rest0 = some e ∧
      e.2.1 = ((joinChunks e.1).length : Int) ∧
      (e.2.1 ≤ w ∨ (blw = false ∧ isLast = false)) := by
  have hlen0 : 0 ≤ len0 := by
    rw [hj]
    positivity
  unfold handleLong
  cases rest0 with
  | nil => exact ⟨(line0, len0, []), rfl, hj, Or.inl (le_of_lt hlt)⟩
  | cons r rs =>
    dsimp only
    by_cases hgt : (r.length : Int) > w
    · rw [if_pos hgt]
      by_cases hblw : blw
      · rw [if_pos hblw]
        rw [if_pos hw]
        rw [if_neg (show ¬ ((w - len0 : Int) < 0 ∨ (r.length : Int) < w - len0) by omega)]
        have htoNat : ((w - len0).toNat : Int) = w - len0 := Int.toNat_of_nonneg (by omega)
        have htake : (((r.take (w - len0).toNat).length : Nat) : Int) = w - len0 := by
          rw [List.length_take]
          have hmin : min (w - len0).toNat r.length = (w - len0).toNat := by
            apply Nat.min_eq_left
            omega
          rw [hmin, htoNat]
        refine ⟨_, rfl, ?_, ?_⟩
        · rw [joinChunks_concat, List.length_append]
          push_cast
          push_cast at htake
          omega
        · exact Or.inl (show len0 + (w - len0) ≤ w by omega)
      · rw [if_neg hblw]
        have hbf : blw = false := Bool.not_eq_true blw ▸ hblw
        by_cases hz : (len0 == 0 && !isLast) = true
        · rw [if_pos hz]
          have hlf : isLast = false := by
            simp only [Bool.and_eq_true, Bool.not_eq_true'] at hz
            exact hz.2
          refine ⟨_, rfl, ?_, ?_⟩
          · dsimp only
            rw [joinChunks_concat, List.length_append]
            push_cast
            omega
          · exact Or.inr ⟨hbf, hlf⟩
        · rw [if_neg hz]
          exact ⟨(line0, len0, r :: rs), rfl, hj, Or.inl (le_of_lt hlt)⟩
    · rw [if_neg hgt]
      exact ⟨(line0, len0, r :: rs), rfl, hj, Or.inl (le_of_lt hlt)⟩

theorem dropTrail_spec (dws : Bool) (line1 : List GoStr) (len1 : Int)
    (hj : len1 = ((joinChunks line1).length : Int)) :
    (dropTrail dws line1 len1).2 = ((joinChunks (dropTrail dws line1 len1).1).length : Int) ∧
    (dropTrail dws line1 len1).2 ≤ len1 := by
  unfold dropTrail
  by_cases hc : (dws && len1 > 0) = true
  · rw [if_pos hc]
    rcases List.eq_nil_or_concat line1 with rfl | ⟨l', a, rfl⟩
    · simp only [List.getLast?_nil]
      exact ⟨hj, le_rfl⟩
    · rw [List.concat_eq_append] at hj ⊢
      rw [List.getLast?_concat]
      dsimp only
      by_cases hb : isBlank a
      · rw [if_pos hb]
        dsimp only
        rw [List.dropLast_concat]
        rw [hj, joinChunks_concat, List.length_append]
        constructor
        · push_cast
          ring
        · push_cast
          omega
      · rw [if_neg hb]
        exact ⟨hj, le_rfl⟩
  · rw [if_neg hc]
    exact ⟨hj, le_rfl⟩

theorem buildLine_spec (t : TextWrapper) (isLast : Bool) (w : Int) (cs1 : List GoStr)
    (hw : 1 ≤ w) :
    ∃ bf, buildLine t isLast w cs1 = some bf ∧
      bf.1.2 = ((joinChunks bf.1.1).length : Int) ∧
      (bf.1.2 ≤ w ∨ (t.BreakLongWords = false ∧ isLast = false)) := by
  obtain ⟨-, g2, g3⟩ := greedyFill_spec w cs1 0
  have hj0 : (greedyFill w 0 cs1).2.1 =
      ((joinChunks (greedyFill w 0 cs1).1).length : Int) := by
    rw [g2]
    ring
  obtain ⟨e, he, h1, h2⟩ := handleLong_spec t.BreakLongWords isLast w
    (greedyFill w 0 cs1).2.1 (greedyFill w 0 cs1).1 (greedyFill w 0 cs1).2.2 hw hj0
    (g3 (by omega))
  obtain ⟨d1, d2⟩ := dropTrail_spec t.DropWhitespace e.1 e.2.1 h1
  refine ⟨(dropTrail t.DropWhitespace e.1 e.2.1, e.2.2), ?_, d1, ?_⟩
  · unfold buildLine
    rw [he]
  · rcases h2 with h | h
    · exact Or.inl (le_trans d2 h)
    · exact Or.inr h

/-- Positivity of the effective width under the amended hypotheses. -/
theorem effWidth_pos (t : TextWrapper)
    (hI : (t.InitialIndent.length : Int) < t.Width)
    (hS : (t.SubsequentIndent.length : Int) < t.Width)
    (hF : 0 < t.MaxLines →
      ((if t.MaxLines = 1 then t.InitialIndent else t.SubsequentIndent).length : Int) +
        (byteLen t.Placeholder : Int) < t.Width)
    (lines : List GoStr) : 1 ≤ effWidth t lines := by
  unfold effWidth pickIndent isFinalLine isLastLine
  by_cases hfin : (decide (t.MaxLines > 0) && decide ((lines.length : Int) = t.MaxLines - 1)) = true
  · rw [if_pos hfin]
    rw [Bool.and_eq_true] at hfin
    obtain ⟨hm, hl⟩ := hfin
    have hm' : 0 < t.MaxLines := of_decide_eq_true hm
    have hl' : (lines.length : Int) = t.MaxLines - 1 := of_decide_eq_true hl
    have hFm := hF hm'
    by_cases h1 : t.MaxLines = 1
    · rw [if_pos h1] at hFm
      have hemp : lines.isEmpty = true := by
        rw [List.isEmpty_iff, ← List.length_eq_zero]
        omega
      rw [if_pos hemp]
      omega
    · rw [if_neg h1] at hFm
      have hemp : lines.isEmpty = false := by
        rw [List.isEmpty_eq_false, ← List.length_pos, ← Nat.cast_pos (α := Int)]
        omega
      rw [if_neg (by simp [hemp])]
      omega
  · rw [if_neg hfin]
    by_cases hemp : lines.isEmpty
    · rw [if_pos hemp]
      omega
    · rw [if_neg hemp]
      omega

/-- The indent of a line is always one of the two configured indents. -/
theorem pickIndent_cases (t : TextWrapper) (lines : List GoStr) :
    pickIndent t lines = t.InitialIndent ∨ pickIndent t lines = t.SubsequentIndent := by
  unfold pickIndent
  by_cases h : lines.isEmpty
  · rw [if_pos h]
    exact Or.inl rfl
  · rw [if_neg h]
    exact Or.inr rfl

/-- On the forced last line, the validation indent is the line's indent, so
the amended hypothesis bounds indent plus placeholder bytes. -/
theorem final_indent_bound (t : TextWrapper)
    (hF : 0 < t.MaxLines →
      ((if t.MaxLines = 1 then t.InitialIndent else t.SubsequentIndent).length : Int) +
        (byteLen t.Placeholder : Int) < t.Width)
    (lines : List GoStr) (hfin : isFinalLine t lines = true) :
    ((pickIndent t lines).length : Int) + (byteLen t.Placeholder : Int) < t.Width := by
  unfold isFinalLine isLastLine at hfin
  rw [Bool.and_eq_true] at hfin
  obtain ⟨hm, hl⟩ := hfin
  have hm' : 0 < t.MaxLines := of_decide_eq_true hm
  have hl' : (lines.length : Int) = t.MaxLines - 1 := of_decide_eq_true hl
  have hFm := hF hm'
  unfold pickIndent
  by_cases h1 : t.MaxLines = 1
  · rw [if_pos h1] at hFm
    have hemp : lines.isEmpty = true := by
      rw [List.isEmpty_iff, ← List.length_eq_zero]
      omega
    rw [if_pos hemp]
    exact hFm
  · rw [if_neg h1] at hFm
    have hemp : lines.isEmpty = false := by
      rw [List.isEmpty_eq_false, ← List.length_pos, ← Nat.cast_pos (α := Int)]
      omega
    rw [if_neg (by simp [hemp])]
    exact hFm

/-- The rendered final line (content, then placeholder, left-stripped when
the content is empty) fits in Width. -/
theorem final_line_le (t : TextWrapper) (indent : GoStr) (line2 : List GoStr) (len2 : Int)
    (hj : len2 = ((joinChunks line2).length : Int))
    (hle : len2 ≤ t.Width - (indent.length : Int) - (byteLen t.Placeholder : Int))
    (hiw : (indent.length : Int) + (byteLen t.Placeholder : Int) < t.Width) :
    ((indent ++ joinChunks (if len2 == 0 then line2 ++ [Lstrip t.Placeholder]
      else line2 ++ [t.Placeholder])).length : Int) ≤ t.Width := by
  split
  · rename_i hz
    have hz' : len2 = 0 := by simpa using hz
    have hjoin : joinChunks line2 = [] := by
      rw [← List.length_eq_zero]
      rw [hz'] at hj
      exact_mod_cast hj.symm
    rw [joinChunks_concat, hjoin, List.nil_append, List.length_append]
    have h1 : (Lstrip t.Placeholder).length ≤ t.Placeholder.length := dropWhile_length_le _ _
    have h2 := length_le_byteLen t.Placeholder
    push_cast
    omega
  · rw [joinChunks_concat, List.length_append, List.length_append]
    have h2 := length_le_byteLen t.Placeholder
    push_cast
    omega

/-- A rendered non-final line satisfies the width bound (or the
break-long-words-false exception). -/
theorem emit_lineOk (t : TextWrapper) (lines : List GoStr) (line2 : List GoStr) (len2 : Int)
    (hj : len2 = ((joinChunks line2).length : Int))
    (hdisj : len2 ≤ t.Width - ((pickIndent t lines).length : Int) ∨ t.BreakLongWords = false) :
    lineOk t (pickIndent t lines ++ joinChunks line2) := by
  by_cases hle : len2 ≤ t.Width - ((pickIndent t lines).length : Int)
  · apply Or.inl
    rw [List.length_append]
    push_cast
    omega
  · rcases hdisj with h | h
    · exact absurd h hle
    · refine Or.inr ⟨h, pickIndent t lines, joinChunks line2, pickIndent_cases t lines, rfl, ?_⟩
      omega

/-- One loop iteration preserves the width bound on all emitted lines. -/
theorem wrapStep_lineOk (t : TextWrapper)
    (hI : (t.InitialIndent.length : Int) < t.Width)
    (hS : (t.SubsequentIndent.length : Int) < t.Width)
    (hF : 0 < t.MaxLines →
      ((if t.MaxLines = 1 then t.InitialIndent else t.SubsequentIndent).length : Int) +
        (byteLen t.Placeholder : Int) < t.Width)
    (lines cs : List GoStr) (hP : ∀ l ∈ lines, lineOk t l) :
    (∀ fin, wrapStep t lines cs = some (Sum.inl fin) → ∀ l ∈ fin, lineOk t l) ∧
    (∀ ls' cs', wrapStep t lines cs = some (Sum.inr (ls', cs')) → ∀ l ∈ ls', lineOk t l) := by
  have hw := effWidth_pos t hI hS hF lines
  obtain ⟨bf, hbf, bj, bd⟩ := buildLine_spec t (isLastLine t lines) (effWidth t lines)
    (dropLead t lines cs) hw
  have hstep : wrapStep t lines cs = some (emitPhase t lines bf) := by
    unfold wrapStep
    rw [hbf]
  constructor
  · intro fin h
    rw [hstep] at h
    injection h with h
    unfold emitPhase at h
    by_cases hfin : isFinalLine t lines = true
    · rw [if_pos hfin] at h
      injection h with h2
      subst h2
      intro l hl
      rcases List.mem_append.mp hl with h2 | h2
      · exact hP l h2
      · rw [List.mem_singleton] at h2
        subst h2
        apply Or.inl
        have hlast : isLastLine t lines = true := by
          unfold isFinalLine at hfin
          rw [Bool.and_eq_true] at hfin
          exact hfin.2
        have hle : bf.1.2 ≤ effWidth t lines := by
          rcases bd with h3 | h3
          · exact h3
          · rw [hlast] at h3
            cases h3.2
        have hweq : effWidth t lines =
            t.Width - ((pickIndent t lines).length : Int) - (byteLen t.Placeholder : Int) := by
          unfold effWidth
          rw [if_pos hfin]
        exact final_line_le t (pickIndent t lines) _ _ bj (hweq ▸ hle)
          (final_indent_bound t hF lines hfin)
    · rw [if_neg hfin] at h
      by_cases hpos : bf.1.2 > 0
      · rw [if_pos hpos] at h
        injection h
      · rw [if_neg hpos] at h
        injection h
  · intro ls' cs' h
    rw [hstep] at h
    injection h with h
    unfold emitPhase at h
    by_cases hfin : isFinalLine t lines = true
    · rw [if_pos hfin] at h
      injection h
    · rw [if_neg hfin] at h
      have hweq : effWidth t lines = t.Width - ((pickIndent t lines).length : Int) := by
        unfold effWidth
        rw [if_neg hfin]
        omega
      by_cases hpos : bf.1.2 > 0
      · rw [if_pos hpos] at h
        injection h with h2
        injection h2 with h2a h2b
        subst h2a
        intro l hl
        rcases List.mem_append.mp hl with h2 | h2
        · exact hP l h2
        · rw [List.mem_singleton] at h2
          subst h2
          apply emit_lineOk t lines _ _ bj
          rcases bd with h3 | h3
          · exact Or.inl (hweq ▸ h3)
          · exact Or.inr h3.1
      · rw [if_neg hpos] at h
        injection h with h2
        injection h2 with h2a h2b
        subst h2a
        exact hP

/-- The packing loop preserves the width bound. -/
theorem wrapLoop_lineOk (t : TextWrapper)
    (hI : (t.InitialIndent.length : Int) < t.Width)
    (hS : (t.SubsequentIndent.length : Int) < t.Width)
    (hF : 0 < t.MaxLines →
      ((if t.MaxLines = 1 then t.InitialIndent else t.SubsequentIndent).length : Int) +
        (byteLen t.Placeholder : Int) < t.Width) :
    ∀ (fuel : Nat) (lines cs out : List GoStr),
    (∀ l ∈ lines, lineOk t l) → wrapLoop t fuel lines cs = .ok (some out) →
    ∀ l ∈ out, lineOk t l := by
  intro fuel
  induction fuel with
  | zero =>
    intro lines cs out hP h
    cases cs with
    | nil =>
      simp only [wrapLoop] at h
      injection h with h2
      injection h2 with h3
      subst h3
      exact hP
    | cons c cs' =>
      simp only [wrapLoop] at h
      injection h with h2
      exact Option.noConfusion h2
  | succ fuel ih =>
    intro lines cs out hP h
    cases cs with
    | nil =>
      simp only [wrapLoop] at h
      injection h with h2
      injection h2 with h3
      subst h3
      exact hP
    | cons c cs' =>
      simp only [wrapLoop] at h
      obtain ⟨hstep1, hstep2⟩ := wrapStep_lineOk t hI hS hF lines (c :: cs') hP
      rcases hws : wrapStep t lines (c :: cs') with _ | (fin | ⟨lines', cs''⟩)
      · rw [hws] at h
        simp only at h
        exact Except.noConfusion h
      · rw [hws] at h
        simp only at h
        injection h with h2
        injection h2 with h3
        subst h3
        exact hstep1 fin hws
      · rw [hws] at h
        simp only at h
        exact ih lines' cs'' out (hstep2 lines' cs'' hws) h

/-! ### C3 amended: the width bound -/

/-- C3 amended: whenever Wrap succeeds, every emitted line has rendered rune
length at most Width, provided the effective width of every line is at
least 1 (initial and subsequent indents shorter than width; on the forced
last line also room for the placeholder's bytes); the only exception is a
line made of an indent plus one chunk wider than that line's remaining
width, which requires break-long-words false. -/
theorem wrap_width_bound (t : TextWrapper)
    (hI : (t.InitialIndent.length : Int) < t.Width)
    (hS : (t.SubsequentIndent.length : Int) < t.Width)
    (hF : 0 < t.MaxLines →
      ((if t.MaxLines = 1 then t.InitialIndent else t.SubsequentIndent).length : Int) +
        (byteLen t.Placeholder : Int) < t.Width)
    (text : GoStr) (fuel : Nat) (out : List GoStr)
    (h : t.Wrap text fuel = .ok (some out)) :
    ∀ l ∈ out, lineOk t l := by
  unfold TextWrapper.Wrap at h
  split_ifs at h
  all_goals exact wrapLoop_lineOk t hI hS hF fuel [] (chunksOf t text) out (fun l hl => absurd hl (List.not_mem_nil l)) h

/-- Witness for C3's amended statement: Width 10, text "abc def". -/
theorem wrap_width_bound_witness :
    lineOk { NewTextWrapper with Width := 10 } (("abc def").toList) :=
  wrap_width_bound { NewTextWrapper with Width := 10 } (by decide) (by decide) (by decide)
    (("abc def").toList) 5 [("abc def").toList] rfl (("abc def").toList)
    (List.mem_singleton.mpr rfl)

end Textwrap
